import Mathlib

/-
Verification of the command line flag layer of pstack (libpstack/flags.h).

The development shallowly embeds the header:
  - the type generic helper convert (which delegates to strtoll / strtoull
    with base 0 for integral targets) is embedded for integral targets of
    any bit width, with the ISO C semantics of the delegated primitives
    (whitespace skip, optional sign, auto base detection, longest valid
    digit prefix, value clamping, fallback 0 when no digits are present);
  - the Flags registry is embedded as a structure parametrised by a state
    type, callbacks being state transformers; C++ references captured by
    the helper callbacks are embedded as update functions on the state.

Bodies declared in flags.h but implemented in a translation unit that is
not part of this source tree (the five argument add, done, dump, the parse
pair) are modelled from the specification; their doc comments say so.
-/

namespace pstack

/-- Whitespace test matching isspace in the C locale, used by the strtoll
family when skipping leading whitespace. -/
def isSpace (c : Char) : Bool :=
  decide (c = ' ' ∨ c = '\t' ∨ c = '\n' ∨ c = '\x0b' ∨ c = '\x0c' ∨ c = '\r')

/-- Value of a single digit character under the given base, following the
digit alphabet of the C strtol family (0-9, then letters in either case).
Characters that are not digits of the base yield none. -/
def digitVal (base : Nat) (c : Char) : Option Nat :=
  if '0' ≤ c ∧ c ≤ '9' ∧ c.toNat - '0'.toNat < base then some (c.toNat - '0'.toNat)
  else if 'a' ≤ c ∧ c ≤ 'z' ∧ c.toNat - 'a'.toNat + 10 < base then some (c.toNat - 'a'.toNat + 10)
  else if 'A' ≤ c ∧ c ≤ 'Z' ∧ c.toNat - 'A'.toNat + 10 < base then some (c.toNat - 'A'.toNat + 10)
  else none

/-- Accumulate the longest initial run of digits of the base, starting from
an accumulator; stops at the first character that is not a digit of the
base.  This is the digit loop of the strtol family. -/
def accDigits (base : Nat) : Nat → List Char → Nat
  | acc, [] => acc
  | acc, c :: cs =>
    match digitVal base c with
    | some d => accDigits base (acc * base + d) cs
    | none => acc

/-- Leading whitespace skip of the strtol family. -/
def dropSpaces (cs : List Char) : List Char := cs.dropWhile isSpace

/-- Optional sign handling of the strtol family: returns the negativity
flag and the remaining characters. -/
def signSplit : List Char → Bool × List Char
  | '-' :: t => (true, t)
  | '+' :: t => (false, t)
  | cs => (false, cs)

/-- True when the list starts with a hexadecimal digit; the strtol family
only consumes a 0x prefix when a hexadecimal digit follows it. -/
def isHexStart : List Char → Bool
  | c :: _ => (digitVal 16 c).isSome
  | [] => false

/-- Magnitude scanned by the strtol family at base argument 0 (auto base):
a 0x or 0X prefix followed by a hex digit selects base 16, any other
leading 0 selects base 8, anything else base 10.  When no digit of the
selected base is present the result is 0. -/
def numMag : List Char → Nat
  | [] => 0
  | c :: rest =>
    if c = '0' then
      match rest with
      | x :: t =>
        if (x = 'x' ∨ x = 'X') ∧ isHexStart t = true then accDigits 16 0 t
        else accDigits 8 0 ('0' :: x :: t)
      | [] => 0
    else accDigits 10 0 (c :: rest)

def LLONG_MAX : Int := 2 ^ 63 - 1
def LLONG_MIN : Int := -(2 ^ 63)
def ULLONG_MAX : Nat := 2 ^ 64 - 1

/-- Embedding of strtoll(s, nullptr, 0): whitespace, optional sign, auto
base magnitude, clamped to the long long range.  Total: malformed input
yields 0, matching the C function, which sets no error except ERANGE. -/
def strtoll (s : String) : Int :=
  let neg := (signSplit (dropSpaces s.data)).1
  let m : Int := (numMag (signSplit (dropSpaces s.data)).2 : Int)
  let v : Int := if neg then -m else m
  if v < LLONG_MIN then LLONG_MIN else if LLONG_MAX < v then LLONG_MAX else v

/-- Embedding of strtoull(s, nullptr, 0): as strtoll, but the magnitude is
clamped to the unsigned long long range and a negative sign wraps the
value modulo 2 ^ 64, as specified for the C function. -/
def strtoull (s : String) : Nat :=
  let m := numMag (signSplit (dropSpaces s.data)).2
  if ULLONG_MAX < m then ULLONG_MAX
  else if (signSplit (dropSpaces s.data)).1 then (2 ^ 64 - m) % 2 ^ 64 else m

/-- Conversion of a long long value to a w bit signed integral type
(two's complement wrap), the effect of the cast T(...) in convert for a
narrower signed integral target. -/
def toSigned (w : Nat) (n : Int) : Int := (n + 2 ^ (w - 1)) % 2 ^ w - 2 ^ (w - 1)

/-- Embedding of convert<T> from flags.h for a signed integral target T of
width w bits: to = T(strtoll(opt, nullptr, 0)). -/
def convertSigned (w : Nat) (opt : String) : Int := toSigned w (strtoll opt)

/-- Embedding of convert<T> from flags.h for an unsigned integral target T
of width w bits: to = T(strtoull(opt, nullptr, 0)). -/
def convertUnsigned (w : Nat) (opt : String) : Nat := strtoull opt % 2 ^ w

/-- Embedding of convert<int> (32 bit signed int target). -/
def convert_int (opt : String) : Int := convertSigned 32 opt

/-- A string has a leading numeric prefix when, after the whitespace and
optional sign handled by the strtol family, its first character is a
decimal digit.  Strings without one (such as "abc") are the malformed
inputs of claim C4. -/
def hasLeadingDigit (s : String) : Bool :=
  match (signSplit (dropSpaces s.data)).2 with
  | c :: _ => decide ('0' ≤ c ∧ c ≤ '9')
  | [] => false

theorem digitVal_ten_none {c : Char} (h : ¬('0' ≤ c ∧ c ≤ '9')) : digitVal 10 c = none := by
  unfold digitVal
  split_ifs with h1 h2 h3
  · exact absurd ⟨h1.1, h1.2.1⟩ h
  · exact absurd h2.2.2 (by omega)
  · exact absurd h3.2.2 (by omega)
  · rfl

theorem accDigits_head_none {base : Nat} {c : Char} {cs : List Char} (h : digitVal base c = none)
    (acc : Nat) : accDigits base acc (c :: cs) = acc := by
  unfold accDigits
  rw [h]

theorem numMag_no_digit {cs : List Char}
    (h : ∀ c rest, cs = c :: rest → ¬('0' ≤ c ∧ c ≤ '9')) : numMag cs = 0 := by
  match cs with
  | [] => rfl
  | c :: rest =>
    have hc := h c rest rfl
    have hne : ¬(c = '0') := by
      intro he
      exact hc (by rw [he]; exact ⟨le_refl _, by decide⟩)
    simp only [numMag]
    rw [if_neg hne]
    exact accDigits_head_none (digitVal_ten_none hc) 0

theorem strtoll_of_no_digit {s : String} (h : hasLeadingDigit s = false) : strtoll s = 0 := by
  have hm : numMag (signSplit (dropSpaces s.data)).2 = 0 := by
    apply numMag_no_digit
    intro c rest hcr
    intro hd
    unfold hasLeadingDigit at h
    rw [hcr] at h
    exact absurd hd (of_decide_eq_false h)
  unfold strtoll
  rw [hm]
  cases hs : (signSplit (dropSpaces s.data)).1 <;> simp <;> decide

theorem strtoull_of_no_digit {s : String} (h : hasLeadingDigit s = false) : strtoull s = 0 := by
  have hm : numMag (signSplit (dropSpaces s.data)).2 = 0 := by
    apply numMag_no_digit
    intro c rest hcr
    intro hd
    unfold hasLeadingDigit at h
    rw [hcr] at h
    exact absurd hd (of_decide_eq_false h)
  unfold strtoull
  rw [hm]
  rw [if_neg (by decide : ¬(ULLONG_MAX < 0))]
  cases hs : (signSplit (dropSpaces s.data)).1 <;> simp

theorem toSigned_small {w : Nat} (hw : 0 < w) {n : Int} (h0 : 0 ≤ n) (h1 : n < 2 ^ (w - 1)) :
    toSigned w n = n := by
  have e : (2 : Int) ^ w = 2 ^ (w - 1) * 2 := by
    conv_lhs => rw [show w = (w - 1) + 1 by omega]
    rw [pow_succ]
  have hp : (0 : Int) < 2 ^ (w - 1) := by positivity
  unfold toSigned
  rw [e, Int.emod_eq_of_lt (by omega) (by omega)]
  omega

/-- C4: for every integral target type (any width, either signedness),
converting a string with no leading numeric prefix yields the fallback
value 0; the conversion is a total function, so no exception can be
raised for any input string. -/
theorem convert_malformed_yields_zero (s : String) (w : Nat) (hw : 0 < w)
    (h : hasLeadingDigit s = false) :
    strtoll s = 0 ∧ strtoull s = 0 ∧ convertSigned w s = 0 ∧ convertUnsigned w s = 0 := by
  refine ⟨strtoll_of_no_digit h, strtoull_of_no_digit h, ?_, ?_⟩
  · unfold convertSigned
    rw [strtoll_of_no_digit h]
    exact toSigned_small hw (le_refl 0) (by positivity)
  · unfold convertUnsigned
    rw [strtoull_of_no_digit h]
    exact Nat.zero_mod _

/-- Witness for C4 at the concrete malformed input "abc" and the width of
int, discharging both hypotheses there. -/
theorem convert_malformed_yields_zero_w :
    (0 < 32 ∧ hasLeadingDigit "abc" = false) ∧
      (strtoll "abc" = 0 ∧ strtoull "abc" = 0 ∧
        convertSigned 32 "abc" = 0 ∧ convertUnsigned 32 "abc" = 0) :=
  ⟨⟨by decide, by decide⟩, convert_malformed_yields_zero "abc" 32 (by decide) (by decide)⟩

/-- C10: convert uses base argument 0 (auto base), so a 0x prefix selects
hexadecimal and a leading 0 selects octal, for every integral target type
(C++ integral types are at least 8 bits wide). -/
theorem convert_auto_base (w : Nat) (hw : 8 ≤ w) :
    strtoll "0x10" = 16 ∧ strtoll "010" = 8 ∧ strtoll "10" = 10 ∧
      convertSigned w "0x10" = 16 ∧ convertSigned w "010" = 8 ∧
      convertUnsigned w "0x10" = 16 ∧ convertUnsigned w "010" = 8 := by
  have hmono : (128 : Int) ≤ 2 ^ (w - 1) := by
    calc (128 : Int) = 2 ^ 7 := by norm_num
    _ ≤ 2 ^ (w - 1) := by
        apply pow_le_pow_right₀ (by norm_num)
        omega
  have hmonon : (256 : Nat) ≤ 2 ^ w := by
    calc (256 : Nat) = 2 ^ 8 := by norm_num
    _ ≤ 2 ^ w := Nat.pow_le_pow_right (by norm_num) hw
  refine ⟨by decide, by decide, by decide, ?_, ?_, ?_, ?_⟩
  · unfold convertSigned
    rw [show strtoll "0x10" = 16 from by decide]
    exact toSigned_small (by omega) (by norm_num) (by omega)
  · unfold convertSigned
    rw [show strtoll "010" = 8 from by decide]
    exact toSigned_small (by omega) (by norm_num) (by omega)
  · unfold convertUnsigned
    rw [show strtoull "0x10" = 16 from by decide]
    exact Nat.mod_eq_of_lt (by omega)
  · unfold convertUnsigned
    rw [show strtoull "010" = 8 from by decide]
    exact Nat.mod_eq_of_lt (by omega)

/-- Witness for C10 at the width of int. -/
theorem convert_auto_base_w :
    8 ≤ 32 ∧
      (strtoll "0x10" = 16 ∧ strtoll "010" = 8 ∧ strtoll "10" = 10 ∧
        convertSigned 32 "0x10" = 16 ∧ convertSigned 32 "010" = 8 ∧
        convertUnsigned 32 "0x10" = 16 ∧ convertUnsigned 32 "010" = 8) :=
  ⟨by decide, convert_auto_base 32 (by decide)⟩

/-
The Flags registry.  The state type σ stands for the set of C++ variables
the registered callbacks may mutate through captured references; a
callback with an argument (Cb in the source) becomes String → σ → σ, a
callback without one (VCb) becomes σ → σ.
-/

/-- One entry of the longOptions vector (struct option from getopt.h):
the long form name, whether the flag requires an argument (the has_arg
field), and the val field, which holds the short option code, real or
synthesized (the flag pointer of struct option, always null here, is
omitted). -/
structure LongOpt where
  name : String
  hasArg : Bool
  val : Int
  deriving Repr, DecidableEq

/-- Per flag data from flags.h: help text, the metavar (null pointer
becomes none; non null means the flag takes an argument), and the
callback. -/
structure Data (σ : Type) where
  helptext : String
  metavar : Option String
  callback : String → σ → σ

/-- Insertion into the data map (std::map<int, Data>), indexed by the
resolved short option code; assignment to data[flag] overwrites any
earlier entry with the same key. -/
def mapInsert {σ : Type} (k : Int) (v : Data σ) (m : List (Int × Data σ)) :
    List (Int × Data σ) :=
  (m.filter (fun p => decide (p.1 ≠ k))) ++ [(k, v)]

/-- Lookup in the data map by resolved short option code. -/
def mapFind {σ : Type} (m : List (Int × Data σ)) (k : Int) : Option (Data σ) :=
  (m.find? (fun p => decide (p.1 = k))).map (fun p => p.2)

/-- The Flags registry state: the longOptions vector, the per flag data
map, the derived shortOptions string (std::string embedded as its
character list) and the longVal counter. -/
structure Flags (σ : Type) where
  longOptions : List LongOpt
  data : List (Int × Data σ)
  shortOptions : List Char
  longVal : Int

/-- A freshly constructed Flags object: empty vectors, and longVal
initialised to -2 as in flags.h. -/
def flagsInit (σ : Type) : Flags σ :=
  ⟨[], [], [], -2⟩

/-- The LONGONLY sentinel.  From flags.h: static constexpr int LONGONLY = 0. -/
def Flags.LONGONLY : Int := 0

/-- Resolution of the flag parameter of add: the LONGONLY sentinel is
replaced by the current longVal counter, any other code is kept. -/
def resolveVal (lv : Int) (fl : Int) : Int := if fl = Flags.LONGONLY then lv else fl

/-- The longVal counter after one add call: it decrements exactly when the
call used the LONGONLY sentinel. -/
def nextLv (lv : Int) (fl : Int) : Int := if fl = Flags.LONGONLY then lv - 1 else lv

/-- Modelled from the spec: the body of the five argument Flags::add lives
in a translation unit that is not part of this source tree.  Per the spec
and the header comments, add appends one longOptions entry (has_arg set
iff metavar is non null, val being the real short code, or a synthesized
one obtained from the decrementing longVal counter when the LONGONLY
sentinel was passed) and records the per flag data under the resolved
code. -/
def Flags.add {σ : Type} (f : Flags σ) (name : String) (flag : Int)
    (metavar : Option String) (help : String) (cb : String → σ → σ) : Flags σ :=
  { longOptions := f.longOptions ++ [⟨name, metavar.isSome, resolveVal f.longVal flag⟩]
    data := mapInsert (resolveVal f.longVal flag) ⟨help, metavar, cb⟩ f.data
    shortOptions := f.shortOptions
    longVal := nextLv f.longVal flag }

/-- The four argument add overload for flags that take no argument, from
flags.h: it stores a null metavar and wraps the void callback in one that
ignores its argument string. -/
def Flags.add0 {σ : Type} (f : Flags σ) (name : String) (flag : Int)
    (help : String) (cb : σ → σ) : Flags σ :=
  f.add name flag none help (fun _ s => cb s)

/-- The shortOptions contribution of one longOptions entry: a flag with a
real (positive) short code contributes its character, followed by a colon
iff it requires an argument; synthesized codes contribute nothing. -/
def contribOf (o : LongOpt) : List Char :=
  if 0 < o.val then Char.ofNat o.val.toNat :: (if o.hasArg then [':'] else []) else []

/-- Modelled from the spec: the body of Flags::done is not part of this
source tree.  Per the spec, done computes the short option specification
string consumed by the parser: each short form flag contributes its
character, followed by a colon iff it requires an argument. -/
def Flags.done {σ : Type} (f : Flags σ) : Flags σ :=
  { f with shortOptions := (f.longOptions.map contribOf).flatten }

/-- Modelled from the spec: the body of Flags::dump is not part of this
source tree.  Per the spec, dump writes, for every registered flag in
registration order, its long and (if present) short identifiers, its
metavar if it takes an argument, and its help text, to the stream; the
stream is embedded as the string written so far. -/
def Flags.dump {σ : Type} (f : Flags σ) (os : String) : String :=
  f.longOptions.foldl (fun acc o =>
    acc ++ "--" ++ o.name
      ++ (if 0 < o.val then String.mk ['-', Char.ofNat o.val.toNat] else "")
      ++ (match mapFind f.data o.val with
          | some d =>
            (match d.metavar with
             | some mv => " " ++ mv
             | none => "")
            ++ " " ++ d.helptext
          | none => "")
      ++ "\n") os

end pstack

/-- The stream insertion operator for Flags from flags.h: it returns
opts.dump(os). -/
def streamIns {σ : Type} (os : String) (opts : pstack.Flags σ) : String :=
  opts.dump os

namespace pstack

/-- The setf helper from flags.h: returns a no argument callback that
assigns the captured value; the captured reference becomes the update
function upd. -/
def Flags.setf {σ α : Type} (upd : α → σ → σ) (tv : α) : σ → σ :=
  fun s => upd tv s

/-- A setf call that leaves the second parameter at its declared default,
true. -/
def Flags.setfDefault {σ : Type} (upd : Bool → σ → σ) : σ → σ :=
  Flags.setf upd true

/-- The set helper from flags.h instantiated at T = int: the returned
callback converts the argument string with convert and assigns the
captured variable, embedded as the update function upd. -/
def Flags.set_int {σ : Type} (upd : Int → σ → σ) : String → σ → σ :=
  fun opt s => upd (convert_int opt) s

/-- Modelled from the spec: the append factory.  The body in flags.h,
val.push_back(convert<T>(opt)), does not compile: convert is declared
void convert(const char *, T &), so it returns void and requires the
destination as a second argument, and no instantiation of append is
well formed.  This definition follows the documented intent (the comment
above append: append to a container with push_back, with a converted
value), instantiated at element type int, the container being the
state. -/
def Flags.append_int : String → List Int → List Int :=
  fun opt l => l ++ [convert_int opt]

/-- One bundle of short option characters inside a single token (getopt
allows -ab for -a -b).  Processes the characters left to right, invoking
the callback of each recognised flag; a flag that requires an argument
takes the remainder of the token when non empty, and otherwise asks the
caller for the next argv element: the result is the state so far together
with the pending data entry whose callback still needs that argument.
Unrecognised characters produce the diagnostic of the underlying
primitive and are skipped, per the spec (delegated error signalling). -/
def Flags.shortStep {σ : Type} (f : Flags σ) : List Char → σ → σ × Option (Data σ)
  | [], s => (s, none)
  | c :: cs, s =>
    match mapFind f.data (Int.ofNat c.toNat) with
    | none => f.shortStep cs s
    | some d =>
      if d.metavar.isSome then
        match cs with
        | [] => (s, some d)
        | _ :: _ => (d.callback (String.mk cs) s, none)
      else f.shortStep cs (d.callback "" s)

/-- Modelled from the spec: the body of the const Flags::parse is not part
of this source tree.  Per the spec, parse iterates the matched options via
the underlying getopt_long primitive, looks the flag up by the returned
short form code, and invokes its callback with the argument text when the
flag expects one, in the order the flags appear in the input vector.
Callbacks of flags without an argument receive the empty string where the
C code passes the null optarg (such callbacks ignore it).  Delegated
getopt_long details that no claim touches (the --name=value form, option
abbreviation, argument permutation) are not modelled: tokens that are not
options are skipped. -/
def Flags.parseArgs {σ : Type} (f : Flags σ) : List String → σ → σ
  | [], s => s
  | tok :: rest, s =>
    match tok.data with
    | '-' :: '-' :: nc :: nrest =>
      match f.longOptions.find? (fun o => decide (o.name.data = nc :: nrest)) with
      | none => f.parseArgs rest s
      | some o =>
        match mapFind f.data o.val with
        | none => f.parseArgs rest s
        | some d =>
          if o.hasArg then
            match rest with
            | [] => s
            | a :: rest2 => f.parseArgs rest2 (d.callback a s)
          else f.parseArgs rest (d.callback "" s)
    | '-' :: sc :: srest =>
      match f.shortStep (sc :: srest) s with
      | (s2, none) => f.parseArgs rest s2
      | (s2, some d) =>
        match rest with
        | [] => s2
        | a :: rest2 => f.parseArgs rest2 (d.callback a s2)
    | _ => f.parseArgs rest s

/-- The non const Flags::parse: per the spec and the header comment it
calls done before the const version runs.  The argument vector is the
argv tail after the program name. -/
def Flags.parse {σ : Type} (f : Flags σ) (args : List String) (s : σ) : σ :=
  (f.done).parseArgs args s

/-- C7: the stream insertion convenience and the dump operation agree on
every Flags object and every stream: os << f returns f.dump(os). -/
theorem stream_insertion_is_dump {σ : Type} (os : String) (opts : Flags σ) :
    streamIns os opts = opts.dump os := rfl

/-- C5: registering add("count", LONGONLY, "N", "count help", set(intVar))
and parsing ["--count", "5"] leaves intVar equal to 5, whatever its
initial value. -/
theorem parse_longonly_count (n0 : Int) :
    Flags.parse
      (Flags.add (flagsInit Int) "count" Flags.LONGONLY (some "N") "count help"
        (Flags.set_int (fun v _ => v)))
      ["--count", "5"] n0 = 5 := rfl

/-- C6: registering add("verbose", 'v', "enable verbose", setf(boolVar))
and parsing ["-v"] leaves boolVar true, whatever its initial value; setf
with its defaulted second argument sets the variable to true. -/
theorem parse_short_verbose (b0 : Bool) :
    Flags.parse
      (Flags.add0 (flagsInit Bool) "verbose" (Int.ofNat 'v'.toNat) "enable verbose"
        (Flags.setfDefault (fun b _ => b)))
      ["-v"] b0 = true := by
  cases b0 <;> rfl

/-
Sequences of add calls.  A claim that quantifies over every sequence of
registrations is stated over a list of AddCall values, each recording one
invocation of either add overload with its arguments; applyCalls replays
them against a Flags value.
-/

/-- One invocation of an add overload: withArg is the five argument form
(with its nullable metavar), noArg the four argument no argument form. -/
inductive AddCall (σ : Type) where
  | withArg (name : String) (flag : Int) (metavar : Option String) (help : String)
      (cb : String → σ → σ)
  | noArg (name : String) (flag : Int) (help : String) (cb : σ → σ)

/-- The flag (short code or LONGONLY sentinel) passed by the call. -/
def AddCall.flagOf {σ : Type} : AddCall σ → Int
  | .withArg _ fl _ _ _ => fl
  | .noArg _ fl _ _ => fl

/-- The long form name passed by the call. -/
def AddCall.nameOf {σ : Type} : AddCall σ → String
  | .withArg n _ _ _ _ => n
  | .noArg n _ _ _ => n

/-- The metavar passed by the call (always null for the no argument
overload). -/
def AddCall.mvOf {σ : Type} : AddCall σ → Option String
  | .withArg _ _ mv _ _ => mv
  | .noArg _ _ _ _ => none

/-- The registered flag takes an argument iff the call passed a non null
metavar. -/
def AddCall.takesArg {σ : Type} (c : AddCall σ) : Bool := c.mvOf.isSome

/-- Replay one add call against a Flags value. -/
def AddCall.apply1 {σ : Type} (f : Flags σ) : AddCall σ → Flags σ
  | .withArg n fl mv h cb => f.add n fl mv h cb
  | .noArg n fl h cb => f.add0 n fl h cb

/-- Replay a sequence of add calls. -/
def applyCalls {σ : Type} : Flags σ → List (AddCall σ) → Flags σ
  | f, [] => f
  | f, c :: rest => applyCalls (AddCall.apply1 f c) rest

/-- The longOptions entries a sequence of add calls appends, starting from
a given longVal counter. -/
def entriesOf {σ : Type} (lv : Int) : List (AddCall σ) → List LongOpt
  | [] => []
  | c :: rest =>
    ⟨c.nameOf, c.takesArg, resolveVal lv c.flagOf⟩ :: entriesOf (nextLv lv c.flagOf) rest

/-- The short option specification a sequence of add calls describes:
each call with an explicit short code contributes exactly one character
(its code), followed by a colon iff the flag takes an argument; long only
calls contribute nothing. -/
def shortSpecOf {σ : Type} : List (AddCall σ) → List Char
  | [] => []
  | c :: rest =>
    if c.flagOf = Flags.LONGONLY then shortSpecOf rest
    else Char.ofNat c.flagOf.toNat :: ((if c.takesArg then [':'] else []) ++ shortSpecOf rest)

/-- The internal codes synthesized for the long only calls of a sequence,
starting from a given longVal counter. -/
def synthValsOf {σ : Type} (lv : Int) : List (AddCall σ) → List Int
  | [] => []
  | c :: rest =>
    if c.flagOf = Flags.LONGONLY then lv :: synthValsOf (lv - 1) rest
    else synthValsOf lv rest

/-- The explicitly supplied short codes of a sequence of add calls. -/
def explicitValsOf {σ : Type} : List (AddCall σ) → List Int
  | [] => []
  | c :: rest =>
    if c.flagOf = Flags.LONGONLY then explicitValsOf rest
    else c.flagOf :: explicitValsOf rest

theorem apply1_longOptions {σ : Type} (f : Flags σ) (c : AddCall σ) :
    (AddCall.apply1 f c).longOptions
      = f.longOptions ++ [⟨c.nameOf, c.takesArg, resolveVal f.longVal c.flagOf⟩] := by
  cases c <;> rfl

theorem apply1_longVal {σ : Type} (f : Flags σ) (c : AddCall σ) :
    (AddCall.apply1 f c).longVal = nextLv f.longVal c.flagOf := by
  cases c <;> rfl

theorem applyCalls_longOptions {σ : Type} (calls : List (AddCall σ)) :
    ∀ f : Flags σ,
      (applyCalls f calls).longOptions = f.longOptions ++ entriesOf f.longVal calls := by
  induction calls with
  | nil => intro f; simp [applyCalls, entriesOf]
  | cons c rest ih =>
    intro f
    show (applyCalls (AddCall.apply1 f c) rest).longOptions = _
    rw [ih, apply1_longOptions, apply1_longVal]
    simp [entriesOf]

theorem contrib_entriesOf {σ : Type} (calls : List (AddCall σ)) :
    ∀ lv : Int, lv < 0 → (∀ c ∈ calls, c.flagOf ≠ Flags.LONGONLY → 0 < c.flagOf) →
      ((entriesOf lv calls).map contribOf).flatten = shortSpecOf calls := by
  induction calls with
  | nil => intro lv _ _; rfl
  | cons c rest ih =>
    intro lv hlv h
    simp only [entriesOf, List.map_cons, List.flatten_cons, shortSpecOf]
    by_cases hc : c.flagOf = Flags.LONGONLY
    · rw [if_pos hc]
      have h1 : contribOf ⟨c.nameOf, c.takesArg, resolveVal lv c.flagOf⟩ = [] := by
        unfold contribOf resolveVal
        rw [if_pos hc]
        simp only
        rw [if_neg (by omega : ¬(0 < lv))]
      rw [h1, List.nil_append]
      have : nextLv lv c.flagOf = lv - 1 := by unfold nextLv; rw [if_pos hc]
      rw [this]
      exact ih (lv - 1) (by omega) (fun x hx hne => h x (List.mem_cons_of_mem c hx) hne)
    · rw [if_neg hc]
      have hpos : 0 < c.flagOf := h c (List.mem_cons_self c rest) hc
      have h1 : contribOf ⟨c.nameOf, c.takesArg, resolveVal lv c.flagOf⟩
          = Char.ofNat c.flagOf.toNat :: (if c.takesArg then [':'] else []) := by
        unfold contribOf resolveVal
        rw [if_neg hc]
        simp only
        rw [if_pos hpos]
      rw [h1]
      have : nextLv lv c.flagOf = lv := by unfold nextLv; rw [if_neg hc]
      rw [this, ih lv hlv (fun x hx hne => h x (List.mem_cons_of_mem c hx) hne)]
      simp

theorem char_ofNat_toNat {n : Nat} (h : n.isValidChar) : (Char.ofNat n).toNat = n := by
  rw [Char.ofNat, dif_pos h]
  rfl

theorem charOfNat_ne_colon {fl : Int} (h0 : 0 < fl) (h58 : fl ≠ 58) :
    Char.ofNat fl.toNat ≠ ':' := by
  intro he
  have h2 := congrArg Char.toNat he
  have hcol : (':' : Char).toNat = 58 := by decide
  by_cases hv : fl.toNat.isValidChar
  · rw [char_ofNat_toNat hv, hcol] at h2
    omega
  · rw [Char.ofNat, dif_neg hv, hcol] at h2
    exact absurd h2 (by decide)

theorem shortSpec_count_chars {σ : Type} (calls : List (AddCall σ))
    (h : ∀ c ∈ calls, c.flagOf ≠ Flags.LONGONLY → 0 < c.flagOf ∧ c.flagOf ≠ 58) :
    ((shortSpecOf calls).filter (fun ch => decide (ch ≠ ':'))).length
      = (calls.filter (fun c => decide (c.flagOf ≠ Flags.LONGONLY))).length := by
  induction calls with
  | nil => rfl
  | cons c rest ih =>
    have htl := ih (fun x hx => h x (List.mem_cons_of_mem c hx))
    by_cases hc : c.flagOf = Flags.LONGONLY
    · simpa [shortSpecOf, hc, List.filter_cons] using htl
    · have hp := h c (List.mem_cons_self c rest) hc
      have hch : (Char.ofNat c.flagOf.toNat) ≠ ':' := charOfNat_ne_colon hp.1 hp.2
      by_cases ht : c.takesArg <;>
        (simp [shortSpecOf, hc, ht, List.filter_cons, List.filter_append, hch];
          simpa using htl)

theorem shortSpec_count_colons {σ : Type} (calls : List (AddCall σ))
    (h : ∀ c ∈ calls, c.flagOf ≠ Flags.LONGONLY → 0 < c.flagOf ∧ c.flagOf ≠ 58) :
    ((shortSpecOf calls).filter (fun ch => decide (ch = ':'))).length
      = (calls.filter (fun c => decide (c.flagOf ≠ Flags.LONGONLY) && c.takesArg)).length := by
  induction calls with
  | nil => rfl
  | cons c rest ih =>
    have htl := ih (fun x hx => h x (List.mem_cons_of_mem c hx))
    by_cases hc : c.flagOf = Flags.LONGONLY
    · simpa [shortSpecOf, hc, List.filter_cons] using htl
    · have hp := h c (List.mem_cons_self c rest) hc
      have hch : (Char.ofNat c.flagOf.toNat) ≠ ':' := charOfNat_ne_colon hp.1 hp.2
      by_cases ht : c.takesArg <;>
        (simp [shortSpecOf, hc, ht, List.filter_cons, List.filter_append, hch];
          simpa using htl)

/-- C2: after any sequence of add calls whose explicit short codes are
character codes other than the colon, done derives a short option
specification that is exactly the concatenation, over the calls with an
explicit code, of that code followed by a colon iff the flag takes an
argument; consequently it holds exactly one non colon character per
explicit short form flag, and exactly one colon per argument taking
one. -/
theorem short_options_per_flag {σ : Type} (calls : List (AddCall σ))
    (h : ∀ c ∈ calls, c.flagOf ≠ Flags.LONGONLY → 0 < c.flagOf ∧ c.flagOf ≠ 58) :
    ((applyCalls (flagsInit σ) calls).done).shortOptions = shortSpecOf calls ∧
      (((applyCalls (flagsInit σ) calls).done).shortOptions.filter
          (fun ch => decide (ch ≠ ':'))).length
        = (calls.filter (fun c => decide (c.flagOf ≠ Flags.LONGONLY))).length ∧
      (((applyCalls (flagsInit σ) calls).done).shortOptions.filter
          (fun ch => decide (ch = ':'))).length
        = (calls.filter (fun c => decide (c.flagOf ≠ Flags.LONGONLY) && c.takesArg)).length := by
  have hA : ((applyCalls (flagsInit σ) calls).done).shortOptions = shortSpecOf calls := by
    show (((applyCalls (flagsInit σ) calls).longOptions).map contribOf).flatten = _
    rw [applyCalls_longOptions]
    show ((([] : List LongOpt) ++ entriesOf (-2) calls).map contribOf).flatten = _
    rw [List.nil_append]
    exact contrib_entriesOf calls (-2) (by norm_num) (fun c hc hne => (h c hc hne).1)
  refine ⟨hA, ?_, ?_⟩
  · rw [hA]; exact shortSpec_count_chars calls h
  · rw [hA]; exact shortSpec_count_colons calls h

/-- A concrete registration sequence for the C2 witness: an argument
taking flag a, a plain flag b, and a long only argument taking flag. -/
def callsC2 : List (AddCall Unit) :=
  [AddCall.withArg "alpha" 97 (some "ARG") "help a" (fun _ s => s),
   AddCall.noArg "beta" 98 "help b" (fun s => s),
   AddCall.withArg "gamma" Flags.LONGONLY (some "G") "help g" (fun _ s => s)]

/-- Witness for C2 at the concrete sequence callsC2. -/
theorem short_options_per_flag_w :
    (∀ c ∈ callsC2, c.flagOf ≠ Flags.LONGONLY → 0 < c.flagOf ∧ c.flagOf ≠ 58) ∧
      (((applyCalls (flagsInit Unit) callsC2).done).shortOptions = shortSpecOf callsC2 ∧
        (((applyCalls (flagsInit Unit) callsC2).done).shortOptions.filter
            (fun ch => decide (ch ≠ ':'))).length
          = (callsC2.filter (fun c => decide (c.flagOf ≠ Flags.LONGONLY))).length ∧
        (((applyCalls (flagsInit Unit) callsC2).done).shortOptions.filter
            (fun ch => decide (ch = ':'))).length
          = (callsC2.filter
              (fun c => decide (c.flagOf ≠ Flags.LONGONLY) && c.takesArg)).length) :=
  ⟨by decide, short_options_per_flag callsC2 (by decide)⟩

theorem synthValsOf_le {σ : Type} (calls : List (AddCall σ)) :
    ∀ lv : Int, ∀ v ∈ synthValsOf lv calls, v ≤ lv := by
  induction calls with
  | nil => intro lv v hv; simp [synthValsOf] at hv
  | cons c rest ih =>
    intro lv v hv
    by_cases hc : c.flagOf = Flags.LONGONLY
    · simp only [synthValsOf, if_pos hc] at hv
      rcases List.mem_cons.mp hv with h1 | h1
      · exact le_of_eq h1
      · have := ih (lv - 1) v h1
        omega
    · simp only [synthValsOf, if_neg hc] at hv
      exact ih lv v hv

theorem synthValsOf_pairwise_gt {σ : Type} (calls : List (AddCall σ)) :
    ∀ lv : Int, (synthValsOf lv calls).Pairwise (fun a b => b < a) := by
  induction calls with
  | nil => intro lv; simp [synthValsOf]
  | cons c rest ih =>
    intro lv
    by_cases hc : c.flagOf = Flags.LONGONLY
    · simp only [synthValsOf, if_pos hc]
      refine List.Pairwise.cons ?_ (ih (lv - 1))
      intro b hb
      have := synthValsOf_le rest (lv - 1) b hb
      omega
    · simp only [synthValsOf, if_neg hc]
      exact ih lv

theorem synthValsOf_head {σ : Type} (calls : List (AddCall σ)) :
    ∀ lv : Int, synthValsOf lv calls ≠ [] → (synthValsOf lv calls).head? = some lv := by
  induction calls with
  | nil => intro lv h; exact absurd rfl h
  | cons c rest ih =>
    intro lv h
    by_cases hc : c.flagOf = Flags.LONGONLY
    · simp [synthValsOf, hc]
    · simp only [synthValsOf, if_neg hc] at h ⊢
      exact ih lv h

theorem explicitValsOf_pos {σ : Type} (calls : List (AddCall σ))
    (h : ∀ c ∈ calls, c.flagOf ≠ Flags.LONGONLY → 0 < c.flagOf) :
    ∀ e ∈ explicitValsOf calls, 0 < e := by
  induction calls with
  | nil => intro e he; simp [explicitValsOf] at he
  | cons c rest ih =>
    intro e he
    have htl := ih (fun x hx hne => h x (List.mem_cons_of_mem c hx) hne)
    by_cases hc : c.flagOf = Flags.LONGONLY
    · simp only [explicitValsOf, if_pos hc] at he
      exact htl e he
    · simp only [explicitValsOf, if_neg hc] at he
      rcases List.mem_cons.mp he with h1 | h1
      · rw [h1]; exact h c (List.mem_cons_self c rest) hc
      · exact htl e h1

theorem entries_vals_filter_neg {σ : Type} (calls : List (AddCall σ)) :
    ∀ lv : Int, lv < 0 → (∀ c ∈ calls, c.flagOf ≠ Flags.LONGONLY → 0 < c.flagOf) →
      (((entriesOf lv calls).map LongOpt.val).filter (fun v => decide (v < 0)))
        = synthValsOf lv calls := by
  induction calls with
  | nil => intro lv _ _; rfl
  | cons c rest ih =>
    intro lv hlv h
    by_cases hc : c.flagOf = Flags.LONGONLY
    · have hval : resolveVal lv c.flagOf = lv := by simp [resolveVal, hc]
      have hnext : nextLv lv c.flagOf = lv - 1 := by simp [nextLv, hc]
      simp only [entriesOf, List.map_cons, List.filter_cons, hval, hnext, synthValsOf,
        if_pos hc]
      rw [if_pos (by simpa using hlv)]
      rw [ih (lv - 1) (by omega) (fun x hx hne => h x (List.mem_cons_of_mem c hx) hne)]
    · have hpos : 0 < c.flagOf := h c (List.mem_cons_self c rest) hc
      have hval : resolveVal lv c.flagOf = c.flagOf := by simp [resolveVal, hc]
      have hnext : nextLv lv c.flagOf = lv := by simp [nextLv, hc]
      simp only [entriesOf, List.map_cons, List.filter_cons, hval, hnext, synthValsOf,
        if_neg hc]
      rw [if_neg (by simp; omega)]
      exact ih lv hlv (fun x hx hne => h x (List.mem_cons_of_mem c hx) hne)

theorem entries_vals_filter_nonneg {σ : Type} (calls : List (AddCall σ)) :
    ∀ lv : Int, lv < 0 → (∀ c ∈ calls, c.flagOf ≠ Flags.LONGONLY → 0 < c.flagOf) →
      (((entriesOf lv calls).map LongOpt.val).filter (fun v => decide (0 ≤ v)))
        = explicitValsOf calls := by
  induction calls with
  | nil => intro lv _ _; rfl
  | cons c rest ih =>
    intro lv hlv h
    by_cases hc : c.flagOf = Flags.LONGONLY
    · have hval : resolveVal lv c.flagOf = lv := by simp [resolveVal, hc]
      have hnext : nextLv lv c.flagOf = lv - 1 := by simp [nextLv, hc]
      simp only [entriesOf, List.map_cons, List.filter_cons, hval, hnext, explicitValsOf,
        if_pos hc]
      rw [if_neg (by simp; omega)]
      exact ih (lv - 1) (by omega) (fun x hx hne => h x (List.mem_cons_of_mem c hx) hne)
    · have hpos : 0 < c.flagOf := h c (List.mem_cons_self c rest) hc
      have hval : resolveVal lv c.flagOf = c.flagOf := by simp [resolveVal, hc]
      have hnext : nextLv lv c.flagOf = lv := by simp [nextLv, hc]
      simp only [entriesOf, List.map_cons, List.filter_cons, hval, hnext, explicitValsOf,
        if_neg hc]
      rw [if_pos (by simp; omega)]
      rw [ih lv hlv (fun x hx hne => h x (List.mem_cons_of_mem c hx) hne)]

theorem entries_zip_synth {σ : Type} (calls : List (AddCall σ)) :
    ∀ lv : Int,
      ((calls.zip (entriesOf lv calls)).filter
          (fun p => decide (p.1.flagOf = Flags.LONGONLY))).map (fun p => p.2.val)
        = synthValsOf lv calls := by
  induction calls with
  | nil => intro lv; rfl
  | cons c rest ih =>
    intro lv
    by_cases hc : c.flagOf = Flags.LONGONLY <;>
      simp [entriesOf, List.filter_cons, synthValsOf, hc, resolveVal, nextLv, ih]

/-- C3: for every sequence of add calls whose explicit short codes are
character codes (positive), the codes synthesized for the LONGONLY calls
are pairwise distinct, distinct from every explicit code, from the
sentinel, and from every printable ASCII code (32 to 126); the first two
conjuncts identify the synthesized and explicit codes inside the final
registry state. -/
theorem longonly_codes_distinct {σ : Type} (calls : List (AddCall σ))
    (h : ∀ c ∈ calls, c.flagOf ≠ Flags.LONGONLY → 0 < c.flagOf) :
    (((applyCalls (flagsInit σ) calls).longOptions.map LongOpt.val).filter
        (fun v => decide (v < 0))) = synthValsOf (-2) calls ∧
      (((applyCalls (flagsInit σ) calls).longOptions.map LongOpt.val).filter
          (fun v => decide (0 ≤ v))) = explicitValsOf calls ∧
      (synthValsOf (-2 : Int) calls).Pairwise (fun a b => a ≠ b) ∧
      ∀ v ∈ synthValsOf (-2 : Int) calls,
        (∀ e ∈ explicitValsOf calls, v ≠ e) ∧ v ≠ Flags.LONGONLY ∧
          ∀ n : Int, 32 ≤ n → n ≤ 126 → v ≠ n := by
  have hL : (applyCalls (flagsInit σ) calls).longOptions = entriesOf (-2) calls := by
    rw [applyCalls_longOptions]
    exact List.nil_append _
  refine ⟨?_, ?_, ?_, ?_⟩
  · rw [hL]; exact entries_vals_filter_neg calls (-2) (by norm_num) h
  · rw [hL]; exact entries_vals_filter_nonneg calls (-2) (by norm_num) h
  · exact (synthValsOf_pairwise_gt calls (-2)).imp (fun hlt => ne_of_gt hlt)
  · intro v hv
    have hle := synthValsOf_le calls (-2) v hv
    have h0 : Flags.LONGONLY = 0 := rfl
    refine ⟨?_, by rw [h0]; omega, ?_⟩
    · intro e he
      have := explicitValsOf_pos calls h e he
      omega
    · intro n h32 h126
      omega

/-- A concrete registration sequence for the C3 witness: two long only
flags around an explicit one. -/
def callsC3 : List (AddCall Unit) :=
  [AddCall.withArg "input" Flags.LONGONLY (some "FILE") "help i" (fun _ s => s),
   AddCall.noArg "quiet" 113 "help q" (fun s => s),
   AddCall.noArg "trace" Flags.LONGONLY "help t" (fun s => s)]

/-- Witness for C3 at the concrete sequence callsC3. -/
theorem longonly_codes_distinct_w :
    (∀ c ∈ callsC3, c.flagOf ≠ Flags.LONGONLY → 0 < c.flagOf) ∧
      ((((applyCalls (flagsInit Unit) callsC3).longOptions.map LongOpt.val).filter
          (fun v => decide (v < 0))) = synthValsOf (-2) callsC3 ∧
        (((applyCalls (flagsInit Unit) callsC3).longOptions.map LongOpt.val).filter
            (fun v => decide (0 ≤ v))) = explicitValsOf callsC3 ∧
        (synthValsOf (-2 : Int) callsC3).Pairwise (fun a b => a ≠ b) ∧
        ∀ v ∈ synthValsOf (-2 : Int) callsC3,
          (∀ e ∈ explicitValsOf callsC3, v ≠ e) ∧ v ≠ Flags.LONGONLY ∧
            ∀ n : Int, 32 ≤ n → n ≤ 126 → v ≠ n) :=
  ⟨by decide, longonly_codes_distinct callsC3 (by decide)⟩

/-- C9: the synthesized base is -2: the first long only registration gets
code -2 and each later one a strictly smaller code; every synthesized
code is at most -2, hence strictly negative, never -1 (the end of options
value of getopt_long) and never the LONGONLY sentinel.  The first two
conjuncts identify the synthesized codes inside the final registry
state. -/
theorem longonly_codes_base {σ : Type} (calls : List (AddCall σ)) :
    (applyCalls (flagsInit σ) calls).longOptions = entriesOf (-2) calls ∧
      ((calls.zip (entriesOf (-2 : Int) calls)).filter
          (fun p => decide (p.1.flagOf = Flags.LONGONLY))).map (fun p => p.2.val)
        = synthValsOf (-2) calls ∧
      (synthValsOf (-2 : Int) calls ≠ [] →
        (synthValsOf (-2 : Int) calls).head? = some (-2)) ∧
      (synthValsOf (-2 : Int) calls).Pairwise (fun a b => b < a) ∧
      ∀ v ∈ synthValsOf (-2 : Int) calls,
        v ≤ -2 ∧ v < 0 ∧ v ≠ -1 ∧ v ≠ Flags.LONGONLY := by
  refine ⟨?_, entries_zip_synth calls (-2), synthValsOf_head calls (-2),
    synthValsOf_pairwise_gt calls (-2), ?_⟩
  · rw [applyCalls_longOptions]
    exact List.nil_append _
  · intro v hv
    have hle := synthValsOf_le calls (-2) v hv
    have h0 : Flags.LONGONLY = 0 := rfl
    exact ⟨hle, by omega, by omega, by rw [h0]; omega⟩

/-- A concrete registration sequence for the C9 witness. -/
def callsC9 : List (AddCall Unit) :=
  [AddCall.noArg "first" Flags.LONGONLY "help f" (fun s => s),
   AddCall.withArg "second" Flags.LONGONLY (some "V") "help s" (fun _ s => s)]

/-- Witness for C9 at the concrete sequence callsC9, discharging the
conditional and bounded conjuncts there. -/
theorem longonly_codes_base_w :
    (applyCalls (flagsInit Unit) callsC9).longOptions = entriesOf (-2) callsC9 ∧
      ((callsC9.zip (entriesOf (-2 : Int) callsC9)).filter
          (fun p => decide (p.1.flagOf = Flags.LONGONLY))).map (fun p => p.2.val)
        = synthValsOf (-2) callsC9 ∧
      (synthValsOf (-2 : Int) callsC9 ≠ [] →
        (synthValsOf (-2 : Int) callsC9).head? = some (-2)) ∧
      (synthValsOf (-2 : Int) callsC9).Pairwise (fun a b => b < a) ∧
      ∀ v ∈ synthValsOf (-2 : Int) callsC9,
        v ≤ -2 ∧ v < 0 ∧ v ≠ -1 ∧ v ≠ Flags.LONGONLY :=
  longonly_codes_base callsC9

theorem find?_skip {σ : Type} (k : Int) (v : Data σ) :
    ∀ l : List (Int × Data σ), (∀ p ∈ l, p.1 ≠ k) →
      List.find? (fun p => decide (p.1 = k)) (l ++ [(k, v)]) = some (k, v) := by
  intro l
  induction l with
  | nil => intro _; simp [List.find?]
  | cons p l ih =>
    intro h
    have hp : ¬(p.1 = k) := h p (List.mem_cons_self p l)
    simp only [List.cons_append, List.find?]
    rw [decide_eq_false hp]
    exact ih (fun q hq => h q (List.mem_cons_of_mem p hq))

theorem mapFind_mapInsert {σ : Type} (m : List (Int × Data σ)) (k : Int) (v : Data σ) :
    mapFind (mapInsert k v m) k = some v := by
  unfold mapFind mapInsert
  rw [find?_skip k v _ ?_]
  · rfl
  · intro p hp
    have := (List.mem_filter.mp hp).2
    simpa using this

/-- C8: a registered flag takes an argument (its longOptions has_arg
field) iff its stored metavar is non null: the five argument add stores
the entry with has_arg equal to the presence of the metavar it records;
and the four argument overload always stores a null metavar, a false
has_arg, and a callback that ignores its argument string, behaving
identically for every argument. -/
theorem hasArg_iff_metavar :
    (∀ (σ : Type) (f : Flags σ) (name : String) (fl : Int) (mv : Option String)
        (help : String) (cb : String → σ → σ),
      (Flags.add f name fl mv help cb).longOptions
          = f.longOptions ++ [⟨name, mv.isSome, resolveVal f.longVal fl⟩] ∧
        mapFind (Flags.add f name fl mv help cb).data (resolveVal f.longVal fl)
          = some ⟨help, mv, cb⟩) ∧
    (∀ (σ : Type) (f : Flags σ) (name : String) (fl : Int) (help : String) (vcb : σ → σ),
      (Flags.add0 f name fl help vcb).longOptions
          = f.longOptions ++ [⟨name, false, resolveVal f.longVal fl⟩] ∧
        ∃ d : Data σ,
          mapFind (Flags.add0 f name fl help vcb).data (resolveVal f.longVal fl) = some d ∧
            d.metavar = none ∧ d.metavar.isSome = false ∧
            ∀ (s1 s2 : String) (st : σ), d.callback s1 st = d.callback s2 st) := by
  constructor
  · intro σ f name fl mv help cb
    exact ⟨rfl, mapFind_mapInsert f.data (resolveVal f.longVal fl) ⟨help, mv, cb⟩⟩
  · intro σ f name fl help vcb
    refine ⟨rfl, ⟨help, none, fun _ s => vcb s⟩, ?_, rfl, rfl, fun _ _ _ => rfl⟩
    exact mapFind_mapInsert f.data (resolveVal f.longVal fl) ⟨help, none, fun _ s => vcb s⟩

/-- C1 (intent of the miscompiling append): a callback built from the
modelled append factory appends the converted value for each occurrence
of the flag, here -x 1 then -x 0x10 appending 1 and 16. -/
theorem append_appends_converted :
    Flags.parse
      (Flags.add (flagsInit (List Int)) "xval" (Int.ofNat 'x'.toNat) (some "N") "append help"
        Flags.append_int)
      ["-x", "1", "-x", "0x10"] [] = [1, 16] := rfl

end pstack
